import Mathlib

/-!
Verification of the column-transformation verbs of dfply (`transform.py`):
`mutate`, `mutate_if`, `mutate_all` and `transmute`, over a shallow embedding
of pandas-style tables as ordered association lists of named columns.

The embedding follows the source: tables are ordered lists of
(column name, column values) pairs; `df.assign(**kwargs)` is modelled by
`assign` (existing names overwritten in place, new names appended in keyword
order, as pandas documents); Python dict construction for `mutate_all`'s
comprehension is `pythonDict` (first-insertion position, last value wins);
old-pandas `DataFrame.select(crit, axis=1)` is a filter of the frame's own
labels in frame order.  Fallible user code (predicates that may raise, the
`__name__` lookup, functions applied by `mutate_all`) is modelled with
`Except` / `Option`; the bare `except: pass` handlers of the source become
explicit treatment of the `Except.error` branch.
-/

namespace Dfply

variable {α : Type} {β : Type} {ε : Type}

/-- A table (pandas DataFrame restricted to what the verbs use): an ordered
list of (column name, column values) pairs.  Row alignment is positional and
never inspected by these verbs, so a column is an opaque list of values. -/
abbrev DF (α : Type) : Type := List (String × List α)

/-- The ordered list of column names of a table (pandas `df.columns`). -/
def colNames (t : DF α) : List String := t.map Prod.fst

/-- First value stored under key `n`, if any (column lookup `df[n]`). -/
def lookupCol (kw : List (String × β)) (n : String) : Option β :=
  match kw with
  | [] => none
  | q :: rest => if q.1 = n then some q.2 else lookupCol rest n

/-- One step of pandas `DataFrame.assign`: setting column `name` to `col`
overwrites an existing column of that name in place (keeping its position),
otherwise appends the new column at the end. -/
def assignOne (t : DF α) (name : String) (col : List α) : DF α :=
  if name ∈ colNames t then
    t.map (fun p => if p.1 = name then (name, col) else p)
  else t ++ [(name, col)]

/-- pandas `df.assign(**kwargs)`: the keyword items are assigned into a copy
of the frame in keyword order.  By the time the verbs of `transform.py` call
`assign`, every value is an already-materialized column (symbolic expressions
have been evaluated by the pipe decorator), so values are plain columns here. -/
def assign (t : DF α) (kwargs : List (String × List α)) : DF α :=
  kwargs.foldl (fun d q => assignOne d q.1 q.2) t

/-- Modelled from the spec: a keyword-assignment value is "either a
precomputed column (sequence aligned to table row count) or an expression
object that, when evaluated against the table, yields such a sequence"
(spec section 3).  The expression-evaluation machinery itself lives in
`dfply.base` (not part of the excerpt), which resolves symbolic expressions
against the table handed to the verb. -/
inductive AsgVal (α : Type) : Type
  | col (c : List α) : AsgVal α
  | expr (f : DF α → List α) : AsgVal α

/-- Modelled from the spec: evaluate an assignment value against table `t`:
expressions are evaluated on `t`, precomputed columns are used as-is. -/
def evalAsg (t : DF α) : AsgVal α → List α
  | AsgVal.col c => c
  | AsgVal.expr f => f t

/-- Evaluate every value of a keyword-assignment map against table `t`. -/
def evalKw (t : DF α) (kw : List (String × AsgVal α)) : List (String × List α) :=
  kw.map (fun q => (q.1, evalAsg t q.2))

/-- `mutate(df, **kwargs)` from `transform.py`: `return df.assign(**kwargs)`,
with each keyword value materialized against the incoming table. -/
def mutate (t : DF α) (kw : List (String × AsgVal α)) : DF α :=
  assign t (evalKw t kw)

/-- Characterization following the spec's words: the original columns, in
their original order, where a column whose name is assigned holds the newly
computed content and every other column is untouched. -/
def overwriteWith (kw : List (String × List α)) (t : DF α) : DF α :=
  t.map (fun p =>
    match lookupCol kw p.1 with
    | some v => (p.1, v)
    | none => p)

/-- Characterization following the spec's words: the assigned columns whose
names do not already occur in the table, in assignment order. -/
def newCols (t : DF α) (kw : List (String × List α)) : List (String × List α) :=
  kw.filter (fun q => q.1 ∉ colNames t)

/-- Select the listed column names (in the listed order) out of a table,
pairing each name with the first column stored under it. -/
def selectNames (t : DF α) (ns : List String) : DF α :=
  ns.filterMap (fun n =>
    match lookupCol t n with
    | some c => some (n, c)
    | none => none)

/-! ### mutate_if -/

/-- Truthiness of `predicate(df[col])` inside the guarded `if` of
`mutate_if`: a predicate call that returns `true` selects the column; a call
that returns `false`, or that raises (any exception type, `Except.error`),
does not. -/
def predSelects (pred : List α → Except ε Bool) (c : List α) : Bool :=
  match pred c with
  | Except.ok true => true
  | Except.ok false => false
  | Except.error _ => false

/-- The `cols` list built by `mutate_if`'s loop: every column name of the
table, in table order, whose column satisfies the predicate; a raising
predicate call is swallowed (`except: pass`) and the column skipped. -/
def mutateIfCols (t : DF α) (pred : List α → Except ε Bool) : List String :=
  t.filterMap (fun p => if predSelects pred p.2 then some p.1 else none)

/-- `mutate_if(df, predicate, fun)` from `transform.py`: collect the selected
column names, then write `fun` of each selected column back under the same
name (`df[cols] = df[cols].apply(fun)`), leaving every other column as it
was. -/
def mutate_if (t : DF α) (pred : List α → Except ε Bool)
    (f : List α → List α) : DF α :=
  let cols := mutateIfCols t pred
  t.map (fun p => if p.1 ∈ cols then (p.1, f p.2) else p)

/-! ### mutate_all -/

/-- A function argument of `mutate_all` as the source sees it: a Python
callable with an optional `__name__` attribute, whose application to a
column may raise. -/
structure MFn (α : Type) (ε : Type) : Type where
  name : Option String
  fn : List α → Except ε (List α)

/-- The ways a pair of `mutate_all`'s dict comprehension can fail: the
`f.__name__` lookup raising `AttributeError`, or the application
`f(df[colname])` raising. -/
inductive MErr (ε : Type) : Type
  | attr : MErr ε
  | app (e : ε) : MErr ε
  deriving DecidableEq

/-- One element of `mutate_all`'s dict comprehension, for a fixed column:
the key `colname + '_' + f.__name__` is evaluated first (failing when `f`
has no `__name__`), then the value `f(df[colname])`. -/
def namedPair (colname : String) (col : List α) (f : MFn α ε) :
    Except (MErr ε) (String × List α) :=
  match f.name with
  | none => Except.error MErr.attr
  | some nm =>
    match f.fn col with
    | Except.error e => Except.error (MErr.app e)
    | Except.ok v => Except.ok (colname ++ "_" ++ nm, v)

/-- The inner loop of the comprehension (`for f in functions`), for one
column; the first failing pair aborts the whole comprehension. -/
def pairsForCol (colname : String) (col : List α) :
    List (MFn α ε) → Except (MErr ε) (List (String × List α))
  | [] => Except.ok []
  | f :: fs =>
    match namedPair colname col f with
    | Except.error e => Except.error e
    | Except.ok q =>
      match pairsForCol colname col fs with
      | Except.error e => Except.error e
      | Except.ok qs => Except.ok (q :: qs)

/-- The outer loop of the comprehension (`for colname in df.columns`),
producing the key/value pairs in nested order. -/
def pairsFor : DF α → List (MFn α ε) → Except (MErr ε) (List (String × List α))
  | [], _ => Except.ok []
  | p :: rest, fs =>
    match pairsForCol p.1 p.2 fs with
    | Except.error e => Except.error e
    | Except.ok here =>
      match pairsFor rest fs with
      | Except.error e => Except.error e
      | Except.ok there => Except.ok (here ++ there)

/-- Python dict construction from a sequence of key/value pairs: a repeated
key keeps its first-insertion position but takes the last value. -/
def pythonDict (ps : List (String × β)) : List (String × β) :=
  ps.foldl
    (fun acc q =>
      if acc.any (fun r => r.1 = q.1) then
        acc.map (fun r => if r.1 = q.1 then (r.1, q.2) else r)
      else acc ++ [q])
    []

/-- `mutate_all(df, *functions)` from `transform.py`: build the dict
comprehension over all (column, function) pairs, then `df.assign` it; an
exception raised while building any pair propagates and no table is
returned. -/
def mutate_all (t : DF α) (fs : List (MFn α ε)) : Except (MErr ε) (DF α) :=
  match pairsFor t fs with
  | Except.error e => Except.error e
  | Except.ok assignments => Except.ok (assign t (pythonDict assignments))

/-- A well-behaved `mutate_all` argument: a function with display name `nm`
whose applications never raise. -/
def liftFn (nm : String) (g : List α → List α) : MFn α ε :=
  MFn.mk (some nm) (fun c => Except.ok (g c))

/-- Characterization following the spec's words: the derived columns of
`mutate_all`, named `colname + '_' + fname` and holding the function applied
to the column, in nested order (outer loop over columns, inner loop over
functions). -/
def derivedPairs (t : DF α) (fs : List (String × (List α → List α))) :
    List (String × List α) :=
  (t.map (fun p => fs.map (fun f => (p.1 ++ "_" ++ f.1, f.2 p.2)))).flatten

/-! ### transmute -/

/-- A keep-column reference of `transmute`, as the resolution loop
distinguishes them: an object carrying a `.name` attribute (symbolic
reference), a plain string, an integer position, or anything else (no
`.name`, not a string, not an integer). -/
inductive ColRef : Type
  | sym (name : String) : ColRef
  | str (s : String) : ColRef
  | pos (i : Int) : ColRef
  | other : ColRef
  deriving DecidableEq

/-- Python sequence indexing `df.columns[i]`: a negative index counts from
the end; an index out of range raises `IndexError` (here `none`). -/
def pyIndex (l : List String) (i : Int) : Option String :=
  let j : Int := if i < 0 then i + l.length else i
  if h : 0 ≤ j ∧ j < (l.length : Int) then
    some (l.get ⟨j.toNat, by omega⟩)
  else none

/-- The `keep_cols` accumulation loop of `transmute`: a symbolic reference
contributes its `.name`; otherwise (`.name` raising `AttributeError`) a
string is used directly and an integer is resolved positionally against the
table's columns (an out-of-range position raising `IndexError`, which is not
caught); any other entry is silently dropped. -/
def keepColsLoop (t : DF α) (acc : List String) :
    List ColRef → Except Unit (List String)
  | [] => Except.ok acc
  | r :: rs =>
    match r with
    | ColRef.sym n => keepColsLoop t (acc ++ [n]) rs
    | ColRef.str s => keepColsLoop t (acc ++ [s]) rs
    | ColRef.pos i =>
      match pyIndex (colNames t) i with
      | some nm => keepColsLoop t (acc ++ [nm]) rs
      | none => Except.error ()
    | ColRef.other => keepColsLoop t acc rs

/-- The resolved keep-column names of `transmute`, in the order of the
flattened `keep_columns` sequence. -/
def keepCols (t : DF α) (ks : List ColRef) : Except Unit (List String) :=
  keepColsLoop t [] ks

/-- `transmute(df, *keep_columns, **kwargs)` from `transform.py`: resolve the
flattened keep-column references, `df.assign(**kwargs)`, then select the
columns whose label is in `kwargs.keys() + keep_cols`.  Old-pandas
`DataFrame.select(crit, axis=1)` filters the frame's own labels, in frame
order, keeping those on which `crit` is true; labels in the membership list
absent from the frame are never consulted. -/
def transmute (t : DF α) (ks : List ColRef)
    (kw : List (String × AsgVal α)) : Except Unit (DF α) :=
  match keepCols t ks with
  | Except.error e => Except.error e
  | Except.ok keep =>
    let assigned := assign t (evalKw t kw)
    let columns := kw.map Prod.fst ++ keep
    Except.ok (assigned.filter (fun p => p.1 ∈ columns))

/-! ### Helper lemmas -/

theorem lookupCol_eq_none {kw : List (String × β)} {n : String}
    (h : n ∉ kw.map Prod.fst) : lookupCol kw n = none := by
  induction kw with
  | nil => rfl
  | cons q rest ih =>
    simp only [List.map_cons, List.mem_cons, not_or] at h
    simp only [lookupCol]
    rw [if_neg (fun hq => h.1 hq.symm), ih h.2]

theorem lookupCol_cons_ne {q : String × β} {kw : List (String × β)}
    {n : String} (h : q.1 ≠ n) : lookupCol (q :: kw) n = lookupCol kw n := by
  simp only [lookupCol]
  rw [if_neg h]

theorem colNames_map_replace (t : DF α) (n : String) (v : List α) :
    colNames (t.map (fun p => if p.1 = n then (n, v) else p)) = colNames t := by
  simp only [colNames, List.map_map]
  apply List.map_congr_left
  intro p _
  by_cases hp : p.1 = n
  · simp [hp]
  · simp [hp]

theorem colNames_append (t t' : DF α) :
    colNames (t ++ t') = colNames t ++ colNames t' := by
  simp [colNames]

/-- Characterization of pandas `assign` for a keyword map with distinct
keys: existing columns keep their position (assigned ones with the new
content), genuinely new columns are appended in keyword order. -/
theorem assign_eq (t : DF α) (kw : List (String × List α))
    (hkw : (kw.map Prod.fst).Nodup) :
    assign t kw = overwriteWith kw t ++ newCols t kw := by
  induction kw generalizing t with
  | nil =>
    simp [assign, overwriteWith, newCols, lookupCol]
  | cons q rest ih =>
    obtain ⟨n, v⟩ := q
    simp only [List.map_cons, List.nodup_cons] at hkw
    obtain ⟨hn, hrest⟩ := hkw
    have step : assign t ((n, v) :: rest) = assign (assignOne t n v) rest := rfl
    rw [step, ih _ hrest]
    by_cases hc : n ∈ colNames t
    · rw [assignOne, if_pos hc]
      have hov : overwriteWith rest
          (t.map (fun p => if p.1 = n then (n, v) else p)) =
          overwriteWith ((n, v) :: rest) t := by
        simp only [overwriteWith, List.map_map]
        apply List.map_congr_left
        intro p _
        have h1 : lookupCol rest n = none := lookupCol_eq_none hn
        by_cases hp : p.1 = n
        · simp [Function.comp, hp, lookupCol, h1]
        · have hnp : ¬ n = p.1 := fun he => hp he.symm
          simp [Function.comp, hp, lookupCol, hnp]
      have hnc : newCols (t.map (fun p => if p.1 = n then (n, v) else p)) rest =
          newCols t ((n, v) :: rest) := by
        simp only [newCols, colNames_map_replace]
        have hdrop : List.filter (fun q => decide (q.1 ∉ colNames t))
            ((n, v) :: rest) =
            List.filter (fun q => decide (q.1 ∉ colNames t)) rest := by
          simp only [List.filter_cons]
          rw [if_neg (by simpa using hc)]
        rw [hdrop]
      rw [hov, hnc]
    · rw [assignOne, if_neg hc]
      have hov : overwriteWith rest (t ++ [(n, v)]) =
          overwriteWith ((n, v) :: rest) t ++ [(n, v)] := by
        simp only [overwriteWith, List.map_append]
        congr 1
        · apply List.map_congr_left
          intro p hp
          have hpn : ¬ n = p.1 := by
            intro he
            exact hc (he ▸ List.mem_map_of_mem Prod.fst hp)
          simp [lookupCol, hpn]
        · simp [lookupCol_eq_none hn]
      have hnc : newCols (t ++ [(n, v)]) rest = newCols t rest := by
        simp only [newCols, colNames_append]
        apply List.filter_congr
        intro q hq
        have hqn : q.1 ≠ n := by
          intro he
          exact hn (he ▸ List.mem_map_of_mem Prod.fst hq)
        simp [colNames, hqn]
      have hcons : newCols t ((n, v) :: rest) = (n, v) :: newCols t rest := by
        simp only [newCols, List.filter_cons]
        rw [if_pos (by simpa using hc)]
      rw [hov, hnc, hcons]
      simp

theorem evalKw_keys (t : DF α) (kw : List (String × AsgVal α)) :
    (evalKw t kw).map Prod.fst = kw.map Prod.fst := by
  simp [evalKw, List.map_map, Function.comp]

theorem overwriteWith_eq_self {kw : List (String × List α)} {t : DF α}
    (h : ∀ p ∈ t, lookupCol kw p.1 = none) : overwriteWith kw t = t := by
  have : overwriteWith kw t = t.map id := by
    apply List.map_congr_left
    intro p hp
    simp [h p hp]
  simpa using this

theorem selectNames_cons_not_mem {t : DF α} {n : String} {c : List α}
    {ns : List String} (h : n ∉ ns) :
    selectNames ((n, c) :: t) ns = selectNames t ns := by
  induction ns with
  | nil => rfl
  | cons m ns' ih =>
    simp only [List.mem_cons, not_or] at h
    simp only [selectNames, List.filterMap_cons] at ih ⊢
    rw [lookupCol_cons_ne (fun he => h.1 he)]
    cases lookupCol t m with
    | none => exact ih h.2
    | some c' =>
      simp only []
      rw [ih h.2]

theorem selectNames_self_append {t : DF α} (rest : DF α)
    (ht : (colNames t).Nodup) : selectNames (t ++ rest) (colNames t) = t := by
  induction t with
  | nil => rfl
  | cons p t' ih =>
    obtain ⟨n, c⟩ := p
    simp only [colNames, List.map_cons, List.nodup_cons] at ht
    obtain ⟨hn, ht'⟩ := ht
    simp only [colNames, selectNames, List.filterMap_cons, List.cons_append,
      lookupCol, if_pos rfl]
    have htail : selectNames ((n, c) :: (t' ++ rest)) (colNames t') = t' := by
      rw [selectNames_cons_not_mem (by simpa [colNames] using hn)]
      exact ih ht'
    simpa [selectNames, colNames] using htail

/-- Claim C1: for every table `T` and keyword assignment map `kw` (with the
distinct keys Python keyword arguments guarantee), `mutate(T, **kw)` returns
a table whose columns are `T`'s original columns in their original order —
any column whose name appears in `kw` keeping its position but holding the
newly computed content — followed by the columns of `kw` whose names are not
in `T`, appended in assignment order, each value computed against `T`
(expressions evaluated on `T`, precomputed columns used as-is).  The
embedding is purely functional, so the input table is left untouched by
construction. -/
theorem mutate_assign_characterization (t : DF α)
    (kw : List (String × AsgVal α)) (hkw : (kw.map Prod.fst).Nodup) :
    mutate t kw = overwriteWith (evalKw t kw) t ++ newCols t (evalKw t kw) := by
  apply assign_eq
  rw [evalKw_keys]
  exact hkw

/-- Witness for C1 at a concrete table: an expression value is evaluated
against the input table, an assigned existing name keeps its position with
the new content, and a fresh name is appended. -/
theorem mutate_assign_characterization_witness :
    mutate [("a", [1]), ("b", [2])]
        [("b", AsgVal.col [5]), ("c", AsgVal.expr (fun df => [(df.length : Int)]))] =
      [("a", [(1 : Int)]), ("b", [5]), ("c", [2])] :=
  (mutate_assign_characterization _ _ (by decide)).trans (by decide)

/-- Claim C9, counterexample: the round-trip fails when an assignment
overwrites an existing column.  With `T = [a ↦ [1]]` and `kw = {a ↦ [2]}`,
`mutate` replaces the content of `a`, so selecting `T`'s original columns
out of the result yields `[a ↦ [2]] ≠ T`. -/
theorem mutate_roundtrip_cex :
    selectNames (mutate [("a", [(1 : Int)])] [("a", AsgVal.col [2])])
        (colNames [("a", [(1 : Int)])]) = [("a", [2])] ∧
      [("a", [(2 : Int)])] ≠ [("a", [(1 : Int)])] := by
  constructor
  · decide
  · decide

/-- Claim C9, amended: for every table `T` (with distinct column names, the
data-model invariant) and keyword assignment map `kw` whose keys are
distinct and disjoint from `T`'s column names, selecting `T`'s original
columns (in their original order) out of `mutate(T, **kw)` reproduces `T`
exactly. -/
theorem mutate_roundtrip_disjoint (t : DF α) (kw : List (String × AsgVal α))
    (hkw : (kw.map Prod.fst).Nodup) (ht : (colNames t).Nodup)
    (hdisj : ∀ q ∈ kw, q.1 ∉ colNames t) :
    selectNames (mutate t kw) (colNames t) = t := by
  rw [mutate_assign_characterization t kw hkw]
  have hov : overwriteWith (evalKw t kw) t = t := by
    apply overwriteWith_eq_self
    intro p hp
    apply lookupCol_eq_none
    rw [evalKw_keys]
    intro hmem
    obtain ⟨q, hq, hq1⟩ := List.mem_map.mp hmem
    exact hdisj q hq (hq1 ▸ List.mem_map_of_mem Prod.fst hp)
  rw [hov]
  exact selectNames_self_append _ ht

/-- Witness for the amended C9 at a concrete table and a disjoint
assignment map. -/
theorem mutate_roundtrip_disjoint_witness :
    selectNames (mutate [("a", [(1 : Int)]), ("b", [2])] [("c", AsgVal.col [3])])
        (colNames [("a", [(1 : Int)]), ("b", [2])]) =
      [("a", [(1 : Int)]), ("b", [2])] :=
  mutate_roundtrip_disjoint _ _ (by decide) (by decide) (by decide)

theorem mem_mutateIfCols {t : DF α} {pred : List α → Except ε Bool}
    {n : String} :
    n ∈ mutateIfCols t pred ↔
      ∃ p, p ∈ t ∧ p.1 = n ∧ predSelects pred p.2 = true := by
  simp only [mutateIfCols, List.mem_filterMap]
  constructor
  · rintro ⟨p, hp, hsome⟩
    by_cases hs : predSelects pred p.2 = true
    · rw [if_pos hs] at hsome
      exact ⟨p, hp, Option.some_injective _ hsome, hs⟩
    · rw [if_neg hs] at hsome
      exact absurd hsome (by simp)
  · rintro ⟨p, hp, hn, hs⟩
    exact ⟨p, hp, by rw [if_pos hs, hn]⟩

theorem fst_inj_of_nodup {t : DF α} (ht : (colNames t).Nodup) :
    ∀ p ∈ t, ∀ q ∈ t, p.1 = q.1 → p = q := by
  intro p hp q hq hpq
  exact List.inj_on_of_nodup_map ht hp hq hpq

/-- Claim C2: for every table `T` (distinct column names, the data-model
invariant), predicate and function, a column `c` of `T` on which the
predicate raises (`Except.error`, standing for an exception of any type
whatsoever) is treated as not selected: its name is not collected and the
column passes through to the output unchanged.  The embedded `mutate_if` is
a total function into tables, so the raised exception is never propagated to
the caller. -/
theorem mutate_if_pred_error_skipped (t : DF α)
    (pred : List α → Except ε Bool) (f : List α → List α) (n : String)
    (c : List α) (e : ε) (ht : (colNames t).Nodup) (hmem : (n, c) ∈ t)
    (herr : pred c = Except.error e) :
    n ∉ mutateIfCols t pred ∧ (n, c) ∈ mutate_if t pred f := by
  have hps : predSelects pred c = false := by
    simp [predSelects, herr]
  have hnot : n ∉ mutateIfCols t pred := by
    intro hmemc
    obtain ⟨p, hp, hpn, hsel⟩ := mem_mutateIfCols.mp hmemc
    have hpe : p = (n, c) := fst_inj_of_nodup ht p hp (n, c) hmem (by simpa using hpn)
    rw [hpe] at hsel
    simp only [] at hsel
    rw [hps] at hsel
    exact Bool.false_ne_true hsel
  refine ⟨hnot, ?_⟩
  have h2 : (fun p : String × List α =>
      if p.1 ∈ mutateIfCols t pred then (p.1, f p.2) else p) (n, c) ∈
        mutate_if t pred f :=
    List.mem_map_of_mem _ hmem
  simpa [hnot] using h2

/-- Witness for C2: on a two-column table a predicate that raises on the
first column (and accepts the second) leaves the first column unselected and
untouched. -/
theorem mutate_if_pred_error_skipped_witness :
    "a" ∉ mutateIfCols [("a", [(1 : Int)]), ("b", [2])]
        (fun c => if c = [1] then Except.error () else Except.ok true) ∧
      ("a", [(1 : Int)]) ∈ mutate_if [("a", [(1 : Int)]), ("b", [2])]
        (fun c => if c = [1] then Except.error () else Except.ok true)
        (fun c => c ++ c) :=
  mutate_if_pred_error_skipped _ _ _ _ _ ()
    (by decide) (by decide) rfl

/-- Claim C3: for every table `T` (distinct column names), predicate and
function, with `S` the list of columns selected by the predicate (those on
which it returns `true`), `mutate_if(T, pred, f)` keeps exactly `T`'s column
names in `T`'s order, replaces each selected column by `f` of the original,
leaves every unselected column identical, and — when `S` is empty — returns
the table unchanged (no error: the embedded function is total). -/
theorem mutate_if_frame_effect (t : DF α) (pred : List α → Except ε Bool)
    (f : List α → List α) (ht : (colNames t).Nodup) :
    mutate_if t pred f =
        t.map (fun p => if predSelects pred p.2 = true then (p.1, f p.2) else p) ∧
      colNames (mutate_if t pred f) = colNames t ∧
      (mutateIfCols t pred = [] → mutate_if t pred f = t) := by
  have hmain : mutate_if t pred f =
      t.map (fun p => if predSelects pred p.2 = true then (p.1, f p.2) else p) := by
    apply List.map_congr_left
    intro p hp
    by_cases hs : predSelects pred p.2 = true
    · rw [if_pos hs]
      have hin : p.1 ∈ mutateIfCols t pred := mem_mutateIfCols.mpr ⟨p, hp, rfl, hs⟩
      rw [if_pos hin]
    · rw [if_neg hs]
      have hout : p.1 ∉ mutateIfCols t pred := by
        intro hmemc
        obtain ⟨q, hq, hqn, hsel⟩ := mem_mutateIfCols.mp hmemc
        have hqe : q = p := fst_inj_of_nodup ht q hq p hp hqn
        exact hs (hqe ▸ hsel)
      rw [if_neg hout]
  refine ⟨hmain, ?_, ?_⟩
  · rw [hmain]
    simp only [colNames, List.map_map]
    apply List.map_congr_left
    intro p _
    by_cases hs : predSelects pred p.2 = true
    · simp [hs]
    · simp [hs]
  · intro hempty
    have : mutate_if t pred f = t.map id := by
      apply List.map_congr_left
      intro p hp
      rw [if_neg (by rw [hempty]; exact List.not_mem_nil p.1)]
      rfl
    simpa using this

/-- Witness for C3: a predicate selecting exactly the columns of length two
doubles them elementwise and leaves the singleton column alone. -/
theorem mutate_if_frame_effect_witness :
    mutate_if [("a", [(1 : Int)]), ("b", [2, 3])]
        (fun c => (Except.ok (decide (c.length = 2)) : Except Unit Bool))
        (fun c => c.map (2 * ·)) =
      [("a", [(1 : Int)]), ("b", [4, 6])] :=
  ((mutate_if_frame_effect _ _ _ (by decide)).1).trans (by decide)

theorem pairsForCol_ok {colname : String} {col : List α}
    {fs : List (MFn α ε)} {ps : List (String × List α)}
    (h : pairsForCol colname col fs = Except.ok ps) :
    ∀ f ∈ fs, (∃ nm, f.name = some nm) ∧ ∃ v, f.fn col = Except.ok v := by
  induction fs generalizing ps with
  | nil => intro f hf; exact absurd hf (List.not_mem_nil f)
  | cons g fs' ih =>
    intro f hf
    simp only [pairsForCol, namedPair] at h
    cases hn : g.name with
    | none => rw [hn] at h; exact absurd h (by simp)
    | some nm =>
      rw [hn] at h
      cases hv : g.fn col with
      | error e => rw [hv] at h; exact absurd h (by simp)
      | ok v =>
        rw [hv] at h
        cases hrec : pairsForCol colname col fs' with
        | error e => rw [hrec] at h; exact absurd h (by simp)
        | ok qs =>
          rcases List.mem_cons.mp hf with hfg | hf'
          · exact hfg ▸ ⟨⟨nm, hn⟩, ⟨v, hv⟩⟩
          · exact ih hrec f hf'

theorem pairsFor_ok {t : DF α} {fs : List (MFn α ε)}
    {ps : List (String × List α)} (h : pairsFor t fs = Except.ok ps) :
    ∀ p ∈ t, ∀ f ∈ fs,
      (∃ nm, f.name = some nm) ∧ ∃ v, f.fn p.2 = Except.ok v := by
  induction t generalizing ps with
  | nil => intro p hp; exact absurd hp (List.not_mem_nil p)
  | cons q t' ih =>
    intro p hp f hf
    simp only [pairsFor] at h
    cases hhere : pairsForCol q.1 q.2 fs with
    | error e => rw [hhere] at h; exact absurd h (by simp)
    | ok here =>
      rw [hhere] at h
      cases hthere : pairsFor t' fs with
      | error e => rw [hthere] at h; exact absurd h (by simp)
      | ok there =>
        rcases List.mem_cons.mp hp with hpq | hp'
        · exact hpq ▸ pairsForCol_ok hhere f hf
        · exact ih hthere p hp' f hf

/-- Claim C8: `mutate_all` applies no soft-failure policy.  If applying any
function of `fs` to any column of `T` raises, `mutate_all(T, *fs)` propagates
an error to the caller and returns no table; and if any function lacks a
resolvable display name (`__name__`), the per-pair naming step — which runs
as soon as there is a column to name — fails with an error rather than
producing a column. -/
theorem mutate_all_error_propagation (t : DF α) (fs : List (MFn α ε)) :
    ((∃ f ∈ fs, ∃ p ∈ t, ∃ e, f.fn p.2 = Except.error e) →
        ∃ e2, mutate_all t fs = Except.error e2) ∧
      ((∃ f ∈ fs, f.name = none) → t ≠ [] →
        ∃ e2, mutate_all t fs = Except.error e2) := by
  cases hp : pairsFor t fs with
  | error e =>
    constructor
    · intro _; exact ⟨e, by simp [mutate_all, hp]⟩
    · intro _ _; exact ⟨e, by simp [mutate_all, hp]⟩
  | ok ps =>
    constructor
    · rintro ⟨f, hf, p, hpt, e, he⟩
      obtain ⟨-, v, hv⟩ := pairsFor_ok hp p hpt f hf
      rw [hv] at he
      exact absurd he (by simp)
    · rintro ⟨f, hf, hname⟩ hne
      cases t with
      | nil => exact absurd rfl hne
      | cons q t' =>
        obtain ⟨⟨nm, hnm⟩, -⟩ := pairsFor_ok hp q (List.mem_cons_self q t') f hf
        rw [hname] at hnm
        exact absurd hnm (by simp)

/-- Witness for C8: a single always-raising function on a one-column table
makes `mutate_all` return an error and no table. -/
theorem mutate_all_error_propagation_witness :
    ∃ e2, mutate_all [("a", [(1 : Int)])]
        [MFn.mk (some "g") (fun _ => Except.error ())] = Except.error e2 :=
  (mutate_all_error_propagation _ _).1
    ⟨MFn.mk (some "g") (fun _ => Except.error ()), by simp,
      ("a", [(1 : Int)]), by simp, (), rfl⟩

/-- Claim C10: `mutate_all` called with zero functions returns the input
table unchanged — the comprehension is empty, so the assignment map is empty
and `df.assign()` returns an equal table; no error is raised. -/
theorem mutate_all_empty_identity (t : DF α) :
    mutate_all t ([] : List (MFn α ε)) = Except.ok t := by
  have h : pairsFor t ([] : List (MFn α ε)) = Except.ok [] := by
    induction t with
    | nil => rfl
    | cons q t' ih => simp [pairsFor, pairsForCol, ih]
  simp [mutate_all, h, pythonDict, assign]

theorem pythonDict_loop (ps : List (String × β)) :
    ∀ acc : List (String × β),
      (acc.map Prod.fst ++ ps.map Prod.fst).Nodup →
      ps.foldl
          (fun acc q =>
            if acc.any (fun r => r.1 = q.1) then
              acc.map (fun r => if r.1 = q.1 then (r.1, q.2) else r)
            else acc ++ [q]) acc = acc ++ ps := by
  induction ps with
  | nil => intro acc _; simp
  | cons q rest ih =>
    intro acc h
    have hq : q.1 ∉ acc.map Prod.fst := by
      intro hmem
      rcases List.nodup_append.mp h with ⟨-, -, hdisj⟩
      exact hdisj hmem (List.mem_cons_self q.1 (rest.map Prod.fst))
    have hany : acc.any (fun r => decide (r.1 = q.1)) = false := by
      simp only [List.any_eq_false, decide_eq_true_eq]
      intro r hr heq
      exact hq (heq ▸ List.mem_map_of_mem Prod.fst hr)
    simp only [List.foldl_cons, hany, Bool.false_eq_true, if_false]
    rw [ih (acc ++ [q]) (by rw [List.map_append, List.append_assoc]; simpa using h)]
    simp

theorem pythonDict_eq_self {ps : List (String × β)}
    (h : (ps.map Prod.fst).Nodup) : pythonDict ps = ps := by
  simpa [pythonDict] using pythonDict_loop ps [] (by simpa using h)

theorem pairsForCol_lift (colname : String) (col : List α)
    (fs : List (String × (List α → List α))) :
    pairsForCol colname col (fs.map (fun f => (liftFn f.1 f.2 : MFn α ε))) =
      Except.ok (fs.map (fun f => (colname ++ "_" ++ f.1, f.2 col))) := by
  induction fs with
  | nil => rfl
  | cons g fs' ih =>
    simp only [liftFn] at ih
    simp [pairsForCol, namedPair, liftFn, ih]

theorem pairsFor_lift (t : DF α) (fs : List (String × (List α → List α))) :
    pairsFor t (fs.map (fun f => (liftFn f.1 f.2 : MFn α ε))) =
      Except.ok (derivedPairs t fs) := by
  induction t with
  | nil => rfl
  | cons p t' ih => simp [pairsFor, pairsForCol_lift, ih, derivedPairs]

/-- Claim C4, counterexample: distinctness of the function display names
(and from the column names) does not make the derived names distinct.  On
`T = [a_b ↦ [0], a ↦ [1]]` with functions named `c` and `b_c` (both the
identity), both `(a_b, c)` and `(a, b_c)` derive the name `a_b_c`; the dict
comprehension keeps one entry for it (first position, last value), so the
result has 5 columns, not 2 + 2 × 2 = 6, and the column `a_b_c` holds the
value derived from column `a`, not from `a_b`. -/
theorem mutate_all_name_collision_cex :
    mutate_all [("a_b", [(0 : Int)]), ("a", [1])]
        ([MFn.mk (some "c") (fun c => Except.ok c),
          MFn.mk (some "b_c") (fun c => Except.ok c)] : List (MFn Int Unit)) =
      Except.ok
        [("a_b", [0]), ("a", [1]), ("a_b_c", [1]), ("a_b_b_c", [0]),
          ("a_c", [1])] ∧
      ([("a_b", [(0 : Int)]), ("a", [1]), ("a_b_c", [1]), ("a_b_b_c", [0]),
          ("a_c", [1])] : DF Int).length ≠ 2 + 2 * 2 := by
  exact ⟨rfl, by decide⟩

/-- Claim C4, amended: for every table `T` and named functions `fs` such
that the derived column names (`colname + '_' + fname`) are pairwise
distinct and distinct from `T`'s column names, `mutate_all(T, *fs)` returns
`T`'s original columns unmodified in original order followed by exactly
(number of columns of `T`) × (number of functions) derived columns, the one
for column `c` and function `f` named `c + '_' + f.name` and holding `f`
applied to `c`, appended in nested order (all derived columns of the first
original column, in function order, before any of the second, and so on). -/
theorem mutate_all_derived_characterization (t : DF α)
    (fs : List (String × (List α → List α)))
    (h1 : ((derivedPairs t fs).map Prod.fst).Nodup)
    (h2 : ∀ q ∈ derivedPairs t fs, q.1 ∉ colNames t) :
    mutate_all t (fs.map (fun f => (liftFn f.1 f.2 : MFn α ε))) =
      Except.ok (t ++ derivedPairs t fs) := by
  have hpairs : pairsFor t (fs.map (fun f => (liftFn f.1 f.2 : MFn α ε))) =
      Except.ok (derivedPairs t fs) := pairsFor_lift t fs
  simp only [mutate_all, hpairs]
  rw [pythonDict_eq_self h1, assign_eq _ _ h1]
  have hov : overwriteWith (derivedPairs t fs) t = t := by
    apply overwriteWith_eq_self
    intro p hp
    apply lookupCol_eq_none
    intro hmem
    obtain ⟨q, hq, hq1⟩ := List.mem_map.mp hmem
    exact h2 q hq (hq1 ▸ List.mem_map_of_mem Prod.fst hp)
  have hnc : newCols t (derivedPairs t fs) = derivedPairs t fs := by
    apply List.filter_eq_self.mpr
    intro q hq
    simpa using h2 q hq
  rw [hov, hnc]

/-- Witness for the amended C4: one column, one function, fresh derived
name. -/
theorem mutate_all_derived_characterization_witness :
    mutate_all [("a", [(1 : Int)])]
        ([("f", fun c => c ++ c)].map
          (fun f => (liftFn f.1 f.2 : MFn Int Unit))) =
      Except.ok [("a", [(1 : Int)]), ("a_f", [1, 1])] :=
  (mutate_all_derived_characterization _ _ (by decide) (by decide)).trans rfl

theorem keepColsLoop_acc (t : DF α) (ks : List ColRef) :
    ∀ acc : List String,
      keepColsLoop t acc ks = Except.map (fun l => acc ++ l) (keepColsLoop t [] ks) := by
  induction ks with
  | nil => intro acc; simp [keepColsLoop, Except.map]
  | cons r rs ih =>
    intro acc
    cases r with
    | sym n =>
      show keepColsLoop t (acc ++ [n]) rs =
        Except.map (fun l => acc ++ l) (keepColsLoop t ([] ++ [n]) rs)
      rw [ih (acc ++ [n]), ih ([] ++ [n])]
      cases keepColsLoop t [] rs with
      | error e => rfl
      | ok l => simp [Except.map]
    | str s =>
      show keepColsLoop t (acc ++ [s]) rs =
        Except.map (fun l => acc ++ l) (keepColsLoop t ([] ++ [s]) rs)
      rw [ih (acc ++ [s]), ih ([] ++ [s])]
      cases keepColsLoop t [] rs with
      | error e => rfl
      | ok l => simp [Except.map]
    | pos i =>
      simp only [keepColsLoop]
      cases hpy : pyIndex (colNames t) i with
      | none => rfl
      | some nm =>
        show keepColsLoop t (acc ++ [nm]) rs =
          Except.map (fun l => acc ++ l) (keepColsLoop t ([] ++ [nm]) rs)
        rw [ih (acc ++ [nm]), ih ([] ++ [nm])]
        cases keepColsLoop t [] rs with
        | error e => rfl
        | ok l => simp [Except.map]
    | other =>
      show keepColsLoop t acc rs =
        Except.map (fun l => acc ++ l) (keepColsLoop t [] rs)
      exact ih acc

/-- Claim C6: each entry of the flattened `keep_columns` of `transmute` is
resolved by trying, in this order of preference, (a) its `.name` attribute
if it has one (a symbolic reference), else (b) the entry itself if it is a
string, else (c) the entry as an integer position against `T`'s column
order; an entry of any other shape is silently dropped from the kept names
without raising — the resolution of the remaining entries is exactly what it
would have been without it. -/
theorem transmute_keep_resolution (t : DF α) (rs : List ColRef)
    (n s nm : String) (i : Int) (hi : pyIndex (colNames t) i = some nm) :
    keepCols t (ColRef.sym n :: rs) =
        Except.map (fun l => n :: l) (keepCols t rs) ∧
      keepCols t (ColRef.str s :: rs) =
        Except.map (fun l => s :: l) (keepCols t rs) ∧
      keepCols t (ColRef.pos i :: rs) =
        Except.map (fun l => nm :: l) (keepCols t rs) ∧
      keepCols t (ColRef.other :: rs) = keepCols t rs := by
  refine ⟨?_, ?_, ?_, ?_⟩
  · show keepColsLoop t ([] ++ [n]) rs = _
    rw [keepColsLoop_acc t rs ([] ++ [n])]
    rfl
  · show keepColsLoop t ([] ++ [s]) rs = _
    rw [keepColsLoop_acc t rs ([] ++ [s])]
    rfl
  · show (match pyIndex (colNames t) i with
      | some nm' => keepColsLoop t ([] ++ [nm']) rs
      | none => Except.error ()) = _
    rw [hi]
    show keepColsLoop t ([] ++ [nm]) rs = _
    rw [keepColsLoop_acc t rs ([] ++ [nm])]
    rfl
  · rfl

/-- Witness for C6 on a concrete table: a symbolic reference contributes its
name, a string is kept, position `-1` resolves to the last column `b`, and a
shapeless entry is dropped without error. -/
theorem transmute_keep_resolution_witness :
    keepCols [("a", [(1 : Int)]), ("b", [2])] (ColRef.sym "n" :: [ColRef.other]) =
        Except.map (fun l => "n" :: l)
          (keepCols [("a", [(1 : Int)]), ("b", [2])] [ColRef.other]) ∧
      keepCols [("a", [(1 : Int)]), ("b", [2])] (ColRef.str "s" :: [ColRef.other]) =
        Except.map (fun l => "s" :: l)
          (keepCols [("a", [(1 : Int)]), ("b", [2])] [ColRef.other]) ∧
      keepCols [("a", [(1 : Int)]), ("b", [2])] (ColRef.pos (-1) :: [ColRef.other]) =
        Except.map (fun l => "b" :: l)
          (keepCols [("a", [(1 : Int)]), ("b", [2])] [ColRef.other]) ∧
      keepCols [("a", [(1 : Int)]), ("b", [2])] (ColRef.other :: [ColRef.other]) =
        keepCols [("a", [(1 : Int)]), ("b", [2])] [ColRef.other] :=
  transmute_keep_resolution _ _ _ _ _ (-1) rfl

/-- Claim C5, counterexample: `transmute(T, 'a', x=[3])` on
`T = [a ↦ [1], b ↦ [2]]` returns the columns in the order `['a', 'x']`, not
`['x', 'a']`: the final column selection filters the assigned frame's own
labels in frame order, so the kept original column precedes the newly
assigned one. -/
theorem transmute_order_cex :
    transmute [("a", [(1 : Int)]), ("b", [2])] [ColRef.str "a"]
        [("x", AsgVal.col [3])] = Except.ok [("a", [1]), ("x", [3])] ∧
      [("a", [(1 : Int)]), ("x", [3])] ≠ [("x", [(3 : Int)]), ("a", [1])] := by
  exact ⟨rfl, by decide⟩

/-- Claim C5, amended: for every table `T`, keep references `ks` (resolving
to `keep`) and assignment map `kw` (distinct keys), the columns of
`transmute(T, *ks, **kw)` appear in the order of the assigned frame: first
`T`'s original columns that are selected (kept, or overwritten by an
assignment — holding the newly computed content), in `T`'s original order,
then the newly created assigned columns in assignment order, each value
computed against `T`; a name appearing in both `kw` and the kept names
appears only once. -/
theorem transmute_column_order (t : DF α) (ks : List ColRef)
    (kw : List (String × AsgVal α)) (keep : List String)
    (hkw : (kw.map Prod.fst).Nodup) (hks : keepCols t ks = Except.ok keep) :
    transmute t ks kw = Except.ok
      ((overwriteWith (evalKw t kw) t).filter
          (fun p => p.1 ∈ kw.map Prod.fst ++ keep) ++
        newCols t (evalKw t kw)) := by
  have h0 : transmute t ks kw = Except.ok
      ((assign t (evalKw t kw)).filter
        (fun p => p.1 ∈ kw.map Prod.fst ++ keep)) := by
    unfold transmute
    rw [hks]
  rw [h0, assign_eq _ _ (by rw [evalKw_keys]; exact hkw), List.filter_append]
  have hfil : (newCols t (evalKw t kw)).filter
      (fun p => p.1 ∈ kw.map Prod.fst ++ keep) = newCols t (evalKw t kw) := by
    apply List.filter_eq_self.mpr
    intro q hq
    have hq' : q ∈ evalKw t kw := List.mem_of_mem_filter hq
    have hmem : q.1 ∈ (evalKw t kw).map Prod.fst :=
      List.mem_map_of_mem Prod.fst hq'
    rw [evalKw_keys] at hmem
    simp [hmem]
  rw [hfil]

/-- Witness for the amended C5 at the concrete scenario of the claim: the
kept original column comes first, then the new assigned column. -/
theorem transmute_column_order_witness :
    transmute [("a", [(1 : Int)]), ("b", [2])] [ColRef.str "a"]
        [("x", AsgVal.col [3])] =
      Except.ok [("a", [(1 : Int)]), ("x", [3])] :=
  (transmute_column_order [("a", [(1 : Int)]), ("b", [2])] [ColRef.str "a"]
    [("x", AsgVal.col [3])] ["a"] (by decide) rfl).trans rfl

/-- Claim C7, counterexample: a keep-column name (`"zzz"`) absent from the
table after assignment is silently omitted: `transmute` returns a table (the
assigned columns only) and no lookup error is raised. -/
theorem transmute_absent_name_cex :
    transmute [("a", [(1 : Int)])] [ColRef.str "zzz"] [("x", AsgVal.col [2])] =
        Except.ok [("x", [2])] ∧
      transmute [("a", [(1 : Int)])] [ColRef.str "zzz"] [("x", AsgVal.col [2])] ≠
        Except.error () := by
  refine ⟨rfl, ?_⟩
  intro h
  exact Except.noConfusion h

/-- Claim C7, amended: a keep-column entry resolving to a string name absent
from the table after assignments is silently omitted from the output — the
column-selection step filters the assigned frame's own labels, never
consults the absent name, raises no lookup error, and the returned table
simply lacks that name. -/
theorem transmute_absent_name_silent (t : DF α) (ks : List ColRef)
    (kw : List (String × AsgVal α)) (keep : List String) (n : String)
    (hks : keepCols t ks = Except.ok keep) (_hn : n ∈ keep)
    (habs : n ∉ colNames (assign t (evalKw t kw))) :
    ∃ r, transmute t ks kw = Except.ok r ∧ n ∉ colNames r := by
  have h0 : transmute t ks kw = Except.ok
      ((assign t (evalKw t kw)).filter
        (fun p => p.1 ∈ kw.map Prod.fst ++ keep)) := by
    unfold transmute
    rw [hks]
  refine ⟨_, h0, ?_⟩
  intro hmem
  apply habs
  obtain ⟨p, hp, hp1⟩ := List.mem_map.mp hmem
  exact hp1 ▸ List.mem_map_of_mem Prod.fst (List.mem_of_mem_filter hp)

/-- Witness for the amended C7: the unresolvable name `zzz` is simply not a
column of the (successfully returned) output. -/
theorem transmute_absent_name_silent_witness :
    ∃ r, transmute [("a", [(1 : Int)])] [ColRef.str "zzz"]
        [("x", AsgVal.col [2])] = Except.ok r ∧ "zzz" ∉ colNames r :=
  transmute_absent_name_silent [("a", [(1 : Int)])] [ColRef.str "zzz"]
    [("x", AsgVal.col [2])] ["zzz"] "zzz" rfl (by decide) (by decide)

end Dfply
